import Mathlib

/-!
# AetherPackBot — verification of the event-dispatch / agent-orchestration spec

Shallow embedding of the parts of AetherPackBot that the specification's
claims talk about.  Message texts are modelled as `List Char`; JavaScript
string operations (`trim`, `split`, `join`, `startsWith`, `includes`,
`slice`) become the corresponding list functions.  Components whose
implementation is shipped with the repository only as a description (the
waking stage, the agent orchestrator, the event dispatcher: the Python
core is not part of the source tree, only the dashboard front-end and the
changelog are) are modelled from the specification and marked as such in
their doc comments.
-/

namespace AetherPackBot

/-! ## Shared string model -/

/-- JavaScript `String.prototype.trim` on a text modelled as `List Char`:
remove leading and trailing whitespace. -/
def trimChars (s : List Char) : List Char :=
  (s.dropWhile Char.isWhitespace).rdropWhile Char.isWhitespace

/-- JavaScript `String.prototype.includes`: `needle` occurs as a contiguous
substring of `hay`. -/
def containsSub (hay needle : List Char) : Bool :=
  if needle.isPrefixOf hay then true
  else
    match hay with
    | [] => false
    | _ :: t => containsSub t needle

/-! ## WakingCheckStage

Modelled from the spec: the Python implementation of the waking stage
(`aetherpackbot` core, described in CHANGELOG v1.1.1) is not in the source
tree; §4.2 of the specification fixes its decision procedure. -/

/-- A component of the canonical message chain (§3: Text, Mention, Reply,
Face, Image). -/
inductive MessageComponent where
  | text (s : List Char)
  | mention (targetId : Nat)
  | reply (referencedMessageId : Nat)
  | face (code : Nat)
  | image (ref : Nat)
deriving DecidableEq

/-- Waking configuration: ordered wake prefixes and wake words (§4.2). -/
structure WakeConfig where
  wakePrefixes : List (List Char)
  wakeWords : List (List Char)
deriving DecidableEq

/-- Does the message chain contain a mention of the bot itself? -/
def hasSelfMention (chain : List MessageComponent) (selfId : Nat) : Bool :=
  chain.any fun c =>
    match c with
    | .mention t => t == selfId
    | _ => false

/-- Modelled from the spec: the waking decision of §4.2, evaluated in
strict priority order with first match winning.
1. mention of `selfId`: wake, clean text is the raw text unchanged;
2. first wake prefix (in configured order) that the raw text starts with:
   wake, clean text is the raw text with exactly that prefix removed and
   then trimmed;
3. any wake word occurring as a substring: wake, clean text unchanged;
4. private chat: wake, clean text is the raw text trimmed;
otherwise no wake. -/
def wakingCheck (chain : List MessageComponent) (selfId : Nat) (isPrivate : Bool)
    (raw : List Char) (cfg : WakeConfig) : Bool × List Char :=
  if hasSelfMention chain selfId then
    (true, raw)
  else
    match cfg.wakePrefixes.find? (fun p => p.isPrefixOf raw) with
    | some p => (true, trimChars (raw.drop p.length))
    | none =>
      if cfg.wakeWords.any (fun w => containsSub raw w) then
        (true, raw)
      else if isPrivate then
        (true, trimChars raw)
      else
        (false, raw)

example :
    wakingCheck [] 1 false "/help world".toList ⟨["/".toList], []⟩
      = (true, "help world".toList) := by decide

example :
    wakingCheck [.mention 1] 1 false "/help".toList ⟨["/".toList], []⟩
      = (true, "/help".toList) := by decide

/-- `List.find?` returns the element at the least index satisfying the
predicate. -/
theorem find_eq_first_match {α : Type} (q : α → Bool) :
    ∀ (ps : List α) (i : Nat) (hi : i < ps.length),
      q (ps.get ⟨i, hi⟩) = true →
      (∀ j (hj : j < i), q (ps.get ⟨j, Nat.lt_trans hj hi⟩) = false) →
      ps.find? q = some (ps.get ⟨i, hi⟩) := by
  intro ps
  induction ps with
  | nil => intro i hi; exact absurd hi (Nat.not_lt_zero i)
  | cons p ps ih =>
    intro i hi hq hmin
    cases i with
    | zero =>
      simp only [List.get] at hq
      simp [List.find?, hq]
    | succ i =>
      have hp : q p = false := hmin 0 (Nat.succ_pos i)
      have hi' : i < ps.length := Nat.lt_of_succ_lt_succ hi
      have := ih i hi' hq (fun j hj => hmin (j + 1) (Nat.succ_lt_succ hj))
      simp only [List.get] at hq ⊢
      rw [List.find?_cons_of_neg _ (by simp [hp]), this]

/-- C1. The waking decision is evaluated in strict priority order, first
match winning: a mention of `selfId` wakes with the raw text unmodified;
otherwise the first matching wake prefix in configured list order wakes
with exactly that one leading prefix removed and the result trimmed;
otherwise a wake-word substring wakes with the text unchanged; otherwise a
private chat wakes with the raw text trimmed; otherwise no wake. -/
theorem wakingCheck_priority_order (chain : List MessageComponent) (selfId : Nat)
    (isPrivate : Bool) (raw : List Char) (cfg : WakeConfig) :
    (hasSelfMention chain selfId = true →
      wakingCheck chain selfId isPrivate raw cfg = (true, raw)) ∧
    (hasSelfMention chain selfId = false →
      ∀ i (hi : i < cfg.wakePrefixes.length),
        (cfg.wakePrefixes.get ⟨i, hi⟩).isPrefixOf raw = true →
        (∀ j (hj : j < i),
          (cfg.wakePrefixes.get ⟨j, Nat.lt_trans hj hi⟩).isPrefixOf raw = false) →
        wakingCheck chain selfId isPrivate raw cfg =
          (true, trimChars (raw.drop (cfg.wakePrefixes.get ⟨i, hi⟩).length))) ∧
    (hasSelfMention chain selfId = false →
      (∀ p ∈ cfg.wakePrefixes, p.isPrefixOf raw = false) →
      (∃ w ∈ cfg.wakeWords, containsSub raw w = true) →
      wakingCheck chain selfId isPrivate raw cfg = (true, raw)) ∧
    (hasSelfMention chain selfId = false →
      (∀ p ∈ cfg.wakePrefixes, p.isPrefixOf raw = false) →
      (∀ w ∈ cfg.wakeWords, containsSub raw w = false) →
      isPrivate = true →
      wakingCheck chain selfId isPrivate raw cfg = (true, trimChars raw)) ∧
    (hasSelfMention chain selfId = false →
      (∀ p ∈ cfg.wakePrefixes, p.isPrefixOf raw = false) →
      (∀ w ∈ cfg.wakeWords, containsSub raw w = false) →
      isPrivate = false →
      (wakingCheck chain selfId isPrivate raw cfg).1 = false) := by
  refine ⟨?_, ?_, ?_, ?_, ?_⟩
  · intro hm
    simp [wakingCheck, hm]
  · intro hm i hi hq hmin
    have hfind := find_eq_first_match (fun p => p.isPrefixOf raw)
      cfg.wakePrefixes i hi hq hmin
    simp [wakingCheck, hm, hfind]
  · intro hm hnopref hword
    have hfind : cfg.wakePrefixes.find? (fun p => p.isPrefixOf raw) = none := by
      rw [List.find?_eq_none]
      intro p hp
      simp [hnopref p hp]
    have hany : cfg.wakeWords.any (fun w => containsSub raw w) = true := by
      rw [List.any_eq_true]
      obtain ⟨w, hw, hcw⟩ := hword
      exact ⟨w, hw, hcw⟩
    simp [wakingCheck, hm, hfind, hany]
  · intro hm hnopref hnoword hpriv
    have hfind : cfg.wakePrefixes.find? (fun p => p.isPrefixOf raw) = none := by
      rw [List.find?_eq_none]
      intro p hp
      simp [hnopref p hp]
    have hany : cfg.wakeWords.any (fun w => containsSub raw w) = false := by
      rw [Bool.eq_false_iff]
      intro hc
      rw [List.any_eq_true] at hc
      obtain ⟨w, hw, hcw⟩ := hc
      exact absurd hcw (by simp [hnoword w hw])
    simp [wakingCheck, hm, hfind, hany, hpriv]
  · intro hm hnopref hnoword hpriv
    have hfind : cfg.wakePrefixes.find? (fun p => p.isPrefixOf raw) = none := by
      rw [List.find?_eq_none]
      intro p hp
      simp [hnopref p hp]
    have hany : cfg.wakeWords.any (fun w => containsSub raw w) = false := by
      rw [Bool.eq_false_iff]
      intro hc
      rw [List.any_eq_true] at hc
      obtain ⟨w, hw, hcw⟩ := hc
      exact absurd hcw (by simp [hnoword w hw])
    simp [wakingCheck, hm, hfind, hany, hpriv]

/-- C1 witness: a concrete run through the prefix branch — with
`wake_prefixes = ["/"]` and the text `"/help world"`, no mention, the
message wakes and the clean text is `"help world"`. -/
theorem wakingCheck_priority_order_witness :
    wakingCheck [] 1 false "/help world".toList ⟨["/".toList], []⟩
      = (true, "help world".toList) := by
  have h := (wakingCheck_priority_order [] 1 false "/help world".toList
      ⟨["/".toList], []⟩).2.1 (by decide) 0 (by decide) (by decide)
      (fun j hj => absurd hj (Nat.not_lt_zero j))
  exact h.trans (by decide)

/-! ## AgentOrchestrator — tool-calling loop

Modelled from the spec: the Python orchestrator (`aetherpackbot` core,
described in CHANGELOG v1.1.1) is not in the source tree; §4.4 of the
specification fixes the state machine `Calling → AwaitingToolResults →
Calling → Done | Failed | Capped` and the turn-building contract. -/

/-- A tool call requested by the model (§3). -/
structure ToolCall where
  id : String
  functionName : String
  arguments : String
deriving DecidableEq

/-- A conversation turn (§3).  `assistant` carries the tool calls it
requests (content nullable when tool calls are present); a `tool` turn
carries the `tool_call_id` it answers. -/
inductive ConversationTurn where
  | system (content : String)
  | user (content : String)
  | assistant (content : Option String) (toolCalls : List ToolCall)
  | tool (toolCallId : String) (content : String)
deriving DecidableEq

/-- One provider completion: plain content, tool-call requests, or a
call-level failure (network/auth/protocol, after the retry budget). -/
inductive ProviderResp where
  | content (s : String)
  | toolCalls (tcs : List ToolCall)
  | failure
deriving DecidableEq

/-- Terminal state of the orchestrator (§4.4). -/
inductive OrchResult where
  | done (content : String)
  | failed
  | capped
deriving DecidableEq

/-- Result of one tool execution (§4.4): success gives the stringified
result, tool-level failure gives an error payload; either way a tool-role
turn with the matching `tool_call_id` is appended. -/
def toolResultTurn (execTool : ToolCall → Except String String) (tc : ToolCall) :
    ConversationTurn :=
  match execTool tc with
  | .ok r => .tool tc.id r
  | .error e => .tool tc.id e

/-- What an orchestrator run produces: the terminal state, the final
accumulated turn list, and the log of the turn lists passed to each
provider call (one entry per `Provider.Complete` invocation). -/
structure OrchOutcome where
  result : OrchResult
  turns : List ConversationTurn
  providerCalls : List (List ConversationTurn)
deriving DecidableEq

/-- Modelled from the spec: the orchestrator loop of §4.4.  The fuel
argument counts the `Calling` entries still allowed: the round counter
starts at 1 on the first entry and increments on every re-entry, and the
loop transitions to `Capped` as soon as the counter would exceed
`max_tool_rounds` — so with fuel `n` the provider is called at most `n`
times.  On a tool-call response the assistant turn carrying the calls
verbatim and one tool-result turn per call (in issue order) are appended
before looping. -/
def orchGo (provider : List ConversationTurn → ProviderResp)
    (execTool : ToolCall → Except String String) :
    Nat → List ConversationTurn → OrchOutcome
  | 0, turns => ⟨.capped, turns, []⟩
  | n + 1, turns =>
    match provider turns with
    | .content c => ⟨.done c, turns, [turns]⟩
    | .failure => ⟨.failed, turns, [turns]⟩
    | .toolCalls tcs =>
      let turns' := turns ++ .assistant none tcs :: tcs.map (toolResultTurn execTool)
      let rest := orchGo provider execTool n turns'
      ⟨rest.result, rest.turns, turns :: rest.providerCalls⟩

/-- Modelled from the spec: a full orchestrator run with round cap
`maxRounds` starting from the initial conversation built by the
agent-processing stage. -/
def orchRun (provider : List ConversationTurn → ProviderResp)
    (execTool : ToolCall → Except String String)
    (maxRounds : Nat) (init : List ConversationTurn) : OrchOutcome :=
  orchGo provider execTool maxRounds init

/-- Turn-structure checker: scans a turn list carrying the tool-call ids
still awaiting their result turns.  A tool turn must answer the next
pending id; an assistant turn is only legal when nothing is pending and
makes its own tool-call ids pending; system/user turns are only legal when
nothing is pending; at the end nothing may be pending.  `wfAux [] ts`
therefore holds exactly when every tool turn sits in a contiguous result
block immediately after the assistant turn that introduced its id. -/
def wfAux : List String → List ConversationTurn → Bool
  | pending, [] => pending.isEmpty
  | pending, t :: rest =>
    match t, pending with
    | .tool id _, p :: ps => id == p && wfAux ps rest
    | .tool _ _, [] => false
    | .assistant _ tcs, [] => wfAux (tcs.map ToolCall.id) rest
    | .assistant _ _, _ :: _ => false
    | .system _, [] => wfAux [] rest
    | .system _, _ :: _ => false
    | .user _, [] => wfAux [] rest
    | .user _, _ :: _ => false

/-- A turn list is well formed when the scan starting with no pending
tool-call ids succeeds. -/
def wfTurns (ts : List ConversationTurn) : Bool :=
  wfAux [] ts

example :
    wfTurns [.user "hi", .assistant none [⟨"1", "get_time", "{}"⟩],
      .tool "1" "12:00", .assistant (some "It is 12:00") []] = true := by decide

example :
    wfTurns [.user "hi", .tool "1" "12:00"] = false := by decide

example :
    wfTurns [.assistant none [⟨"1", "f", ""⟩, ⟨"2", "g", ""⟩],
      .tool "1" "a", .user "x", .tool "2" "b"] = false := by decide

/-- Processing a well-formed block leaves the scan ready for anything that
follows: the scan of an extended list reduces to the scan of the
extension. -/
theorem wfAux_append (ys : List ConversationTurn) :
    ∀ (xs : List ConversationTurn) (pending : List String),
      wfAux pending xs = true → wfAux pending (xs ++ ys) = wfAux [] ys := by
  intro xs
  induction xs with
  | nil =>
    intro pending h
    simp only [wfAux, List.isEmpty_iff] at h
    subst h
    simp
  | cons t rest ih =>
    intro pending h
    cases t with
    | tool id c =>
      cases pending with
      | nil => simp [wfAux] at h
      | cons p ps =>
        simp only [wfAux, Bool.and_eq_true] at h
        simp only [List.cons_append, wfAux, h.1, Bool.true_and]
        exact ih ps h.2
    | assistant c tcs =>
      cases pending with
      | nil =>
        simp only [wfAux] at h
        simp only [List.cons_append, wfAux]
        exact ih _ h
      | cons p ps => simp [wfAux] at h
    | system c =>
      cases pending with
      | nil =>
        simp only [wfAux] at h
        simp only [List.cons_append, wfAux]
        exact ih _ h
      | cons p ps => simp [wfAux] at h
    | user c =>
      cases pending with
      | nil =>
        simp only [wfAux] at h
        simp only [List.cons_append, wfAux]
        exact ih _ h
      | cons p ps => simp [wfAux] at h

/-- A block of tool-result turns, one per issued call in issue order,
discharges exactly the pending ids of those calls. -/
theorem wfAux_toolResults (execTool : ToolCall → Except String String) :
    ∀ (tcs : List ToolCall) (tail : List ConversationTurn),
      wfAux (tcs.map ToolCall.id) (tcs.map (toolResultTurn execTool) ++ tail)
        = wfAux [] tail := by
  intro tcs
  induction tcs with
  | nil => intro tail; simp
  | cons tc tcs ih =>
    intro tail
    have hres : ∃ c, toolResultTurn execTool tc = .tool tc.id c := by
      unfold toolResultTurn
      cases execTool tc with
      | ok r => exact ⟨r, rfl⟩
      | error e => exact ⟨e, rfl⟩
    obtain ⟨c, hc⟩ := hres
    simp only [List.map_cons, List.cons_append, hc, wfAux, beq_self_eq_true,
      Bool.true_and]
    exact ih tail

/-- Appending one assistant turn with its complete contiguous tool-result
block preserves well-formedness. -/
theorem wfTurns_append_round (execTool : ToolCall → Except String String)
    (turns : List ConversationTurn) (tcs : List ToolCall)
    (h : wfTurns turns = true) :
    wfTurns (turns ++ .assistant none tcs :: tcs.map (toolResultTurn execTool))
      = true := by
  unfold wfTurns at h ⊢
  rw [wfAux_append _ turns [] h]
  simp only [wfAux]
  rw [← List.append_nil (tcs.map (toolResultTurn execTool)),
    wfAux_toolResults execTool tcs []]
  rfl

/-- In a list accepted by the scan, every tool turn is preceded by an
assistant turn whose tool calls contain its id, with only tool turns in
between — unless the scan already entered with its id pending, in which
case everything before it is a tool turn. -/
theorem wfAux_tool_context :
    ∀ (pre : List ConversationTurn) (pending : List String) (id c : String)
      (post : List ConversationTurn),
      wfAux pending (pre ++ .tool id c :: post) = true →
      (∃ pre2 cnt tcs mid, pre = pre2 ++ .assistant cnt tcs :: mid ∧
        id ∈ tcs.map ToolCall.id ∧ ∀ t ∈ mid, ∃ i cc, t = .tool i cc) ∨
      (pending ≠ [] ∧ (∀ t ∈ pre, ∃ i cc, t = .tool i cc) ∧ id ∈ pending) := by
  intro pre
  induction pre with
  | nil =>
    intro pending id c post h
    cases pending with
    | nil => simp [wfAux] at h
    | cons p ps =>
      simp only [List.nil_append, wfAux, Bool.and_eq_true, beq_iff_eq] at h
      exact Or.inr ⟨List.cons_ne_nil p ps, by simp, by simp [h.1]⟩
  | cons t pre ih =>
    intro pending id c post h
    cases t with
    | tool i cc =>
      cases pending with
      | nil => simp [wfAux] at h
      | cons p ps =>
        simp only [List.cons_append, wfAux, Bool.and_eq_true] at h
        rcases ih ps id c post h.2 with hleft | hright
        · obtain ⟨pre2, cnt, tcs, mid, hpre, hid, hmid⟩ := hleft
          exact Or.inl ⟨.tool i cc :: pre2, cnt, tcs, mid, by rw [hpre]; rfl,
            hid, hmid⟩
        · obtain ⟨_, hall, hmem⟩ := hright
          refine Or.inr ⟨List.cons_ne_nil p ps, ?_, List.mem_cons_of_mem p hmem⟩
          intro u hu
          rcases List.mem_cons.mp hu with rfl | hu'
          · exact ⟨i, cc, rfl⟩
          · exact hall u hu'
    | assistant cnt tcs =>
      cases pending with
      | nil =>
        simp only [List.cons_append, wfAux] at h
        rcases ih (tcs.map ToolCall.id) id c post h with hleft | hright
        · obtain ⟨pre2, cnt', tcs', mid, hpre, hid, hmid⟩ := hleft
          exact Or.inl ⟨.assistant cnt tcs :: pre2, cnt', tcs', mid,
            by rw [hpre]; rfl, hid, hmid⟩
        · obtain ⟨_, hall, hmem⟩ := hright
          exact Or.inl ⟨[], cnt, tcs, pre, rfl, hmem, hall⟩
      | cons p ps => simp [wfAux] at h
    | system cc =>
      cases pending with
      | nil =>
        simp only [List.cons_append, wfAux] at h
        rcases ih [] id c post h with hleft | hright
        · obtain ⟨pre2, cnt', tcs', mid, hpre, hid, hmid⟩ := hleft
          exact Or.inl ⟨.system cc :: pre2, cnt', tcs', mid, by rw [hpre]; rfl,
            hid, hmid⟩
        · exact absurd rfl hright.1
      | cons p ps => simp [wfAux] at h
    | user cc =>
      cases pending with
      | nil =>
        simp only [List.cons_append, wfAux] at h
        rcases ih [] id c post h with hleft | hright
        · obtain ⟨pre2, cnt', tcs', mid, hpre, hid, hmid⟩ := hleft
          exact Or.inl ⟨.user cc :: pre2, cnt', tcs', mid, by rw [hpre]; rfl,
            hid, hmid⟩
        · exact absurd rfl hright.1
      | cons p ps => simp [wfAux] at h

/-- The orchestrator loop preserves well-formedness of the accumulated
turns, and every turn list handed to the provider is well formed. -/
theorem orchGo_wf (provider : List ConversationTurn → ProviderResp)
    (execTool : ToolCall → Except String String) :
    ∀ (n : Nat) (turns : List ConversationTurn), wfTurns turns = true →
      wfTurns (orchGo provider execTool n turns).turns = true ∧
      ∀ call ∈ (orchGo provider execTool n turns).providerCalls,
        wfTurns call = true := by
  intro n
  induction n with
  | zero =>
    intro turns h
    exact ⟨h, by simp [orchGo]⟩
  | succ n ih =>
    intro turns h
    simp only [orchGo]
    cases hp : provider turns with
    | content c => exact ⟨h, by intro call hc; simp at hc; rwa [hc]⟩
    | failure => exact ⟨h, by intro call hc; simp at hc; rwa [hc]⟩
    | toolCalls tcs =>
      have h' := wfTurns_append_round execTool turns tcs h
      obtain ⟨ht, hcalls⟩ := ih _ h'
      refine ⟨ht, ?_⟩
      intro call hc
      rcases List.mem_cons.mp hc with rfl | hc'
      · exact h
      · exact hcalls call hc'

/-- C2. In every conversation the orchestrator builds — the final turn
list as well as every turn list passed to the provider — a tool-role turn
never appears without a preceding assistant turn whose tool calls contain
its `tool_call_id`, and the tool-result turns of one assistant turn form a
contiguous block immediately after it, with no other turn (in particular
no later assistant turn) in between. -/
theorem orchestrator_turn_invariant
    (provider : List ConversationTurn → ProviderResp)
    (execTool : ToolCall → Except String String)
    (maxRounds : Nat) (init : List ConversationTurn)
    (hinit : wfTurns init = true) :
    wfTurns (orchRun provider execTool maxRounds init).turns = true ∧
    (∀ call ∈ (orchRun provider execTool maxRounds init).providerCalls,
      wfTurns call = true) ∧
    (∀ pre id c post,
      (orchRun provider execTool maxRounds init).turns
        = pre ++ .tool id c :: post →
      ∃ pre2 cnt tcs mid, pre = pre2 ++ .assistant cnt tcs :: mid ∧
        id ∈ tcs.map ToolCall.id ∧ ∀ t ∈ mid, ∃ i cc, t = .tool i cc) := by
  obtain ⟨ht, hcalls⟩ := orchGo_wf provider execTool maxRounds init hinit
  refine ⟨ht, hcalls, ?_⟩
  intro pre id c post heq
  have h := ht
  unfold wfTurns at h
  rw [show (orchGo provider execTool maxRounds init).turns
      = pre ++ .tool id c :: post from heq] at h
  rcases wfAux_tool_context pre [] id c post h with hleft | hright
  · exact hleft
  · exact absurd rfl hright.1

/-- C2 witness: the round-trip of spec §8.5 — one tool call answered then
a final content — yields a final turn list that passes the checker. -/
theorem orchestrator_turn_invariant_witness :
    wfTurns (orchRun
      (fun ts => if ts.length ≤ 1 then .toolCalls [⟨"1", "get_time", "{}"⟩]
                 else .content "It is 12:00")
      (fun _ => .ok "12:00") 5 [.user "hi"]).turns = true :=
  (orchestrator_turn_invariant
    (fun ts => if ts.length ≤ 1 then .toolCalls [⟨"1", "get_time", "{}"⟩]
               else .content "It is 12:00")
    (fun _ => .ok "12:00") 5 [.user "hi"] (by decide)).1

/-- With a provider that always requests tools, the loop runs out of
rounds: the result is `Capped` and the provider is called exactly once per
allowed round. -/
theorem orchGo_always_toolCalls
    (provider : List ConversationTurn → ProviderResp)
    (execTool : ToolCall → Except String String)
    (halways : ∀ ts, ∃ tcs, provider ts = .toolCalls tcs) :
    ∀ (n : Nat) (turns : List ConversationTurn),
      (orchGo provider execTool n turns).result = .capped ∧
      (orchGo provider execTool n turns).providerCalls.length = n := by
  intro n
  induction n with
  | zero => intro turns; exact ⟨rfl, rfl⟩
  | succ n ih =>
    intro turns
    obtain ⟨tcs, htcs⟩ := halways turns
    simp only [orchGo, htcs]
    obtain ⟨hres, hlen⟩ := ih
      (turns ++ .assistant none tcs :: tcs.map (toolResultTurn execTool))
    exact ⟨hres, by simp [hlen]⟩

/-- C3. With a provider that always returns tool calls and
`max_tool_rounds = 5`, the orchestrator terminates in the `Capped` state
after exactly 5 rounds — the provider is called exactly 5 times, never a
6th — returning the bounded tool-limit result instead of looping. -/
theorem orchestrator_bounded_loop
    (provider : List ConversationTurn → ProviderResp)
    (execTool : ToolCall → Except String String)
    (init : List ConversationTurn)
    (halways : ∀ ts, ∃ tcs, provider ts = .toolCalls tcs) :
    (orchRun provider execTool 5 init).result = .capped ∧
    (orchRun provider execTool 5 init).providerCalls.length = 5 :=
  orchGo_always_toolCalls provider execTool halways 5 init

/-- C3 witness: a concrete always-tool-calling provider is capped after
exactly 5 provider calls. -/
theorem orchestrator_bounded_loop_witness :
    (orchRun (fun _ => .toolCalls [⟨"1", "f", "{}"⟩]) (fun _ => .ok "r")
      5 [.user "hi"]).result = .capped ∧
    (orchRun (fun _ => .toolCalls [⟨"1", "f", "{}"⟩]) (fun _ => .ok "r")
      5 [.user "hi"]).providerCalls.length = 5 :=
  orchestrator_bounded_loop (fun _ => .toolCalls [⟨"1", "f", "{}"⟩])
    (fun _ => .ok "r") [.user "hi"] (fun _ => ⟨_, rfl⟩)

/-! ## Dashboard chat — `app.sendChat` (src/data/dist/js/app.js) -/

/-- Role of a dashboard chat-history entry. -/
inductive ChatRole where
  | user
  | assistant
  | system
deriving DecidableEq

/-- One entry of `app.chatHistory` as sent to the backend (the `time`
field is dropped by the `.map` in `sendChat`). -/
structure ChatMsg where
  role : ChatRole
  content : List Char
deriving DecidableEq

/-- The `history` field `sendChat` puts in the request body: the current
message is first pushed onto `chatHistory` (optimistic UI), then
`this.chatHistory.filter(m => m.role !== "system").slice(-20)` is taken. -/
def sendChatHistory (hist : List ChatMsg) (msg : List Char) : List ChatMsg :=
  ((hist ++ [ChatMsg.mk .user msg]).filter
    (fun m => m.role != ChatRole.system)).rtake 20

/-- What the claim literally describes: a window of the 20 most recent
non-system prior turns, followed by the final user turn. -/
def claimedChatHistory (hist : List ChatMsg) (msg : List Char) : List ChatMsg :=
  (hist.filter (fun m => m.role != ChatRole.system)).rtake 20
    ++ [ChatMsg.mk .user msg]

/-- C4 counterexample: with 20 prior non-system turns the code sends only
the 19 most recent of them before the final user turn (20 entries in
total), not all 20 followed by the user turn (21 entries) as the claim
states. -/
theorem sendChatHistory_window_claim_false :
    sendChatHistory (List.replicate 20 ⟨ChatRole.user, ['a']⟩) ['m']
      ≠ claimedChatHistory (List.replicate 20 ⟨ChatRole.user, ['a']⟩) ['m'] := by
  decide

/-- C4 (amended). The conversation `sendChat` sends is the 20 most recent
non-system turns of the history including the just-pushed current message:
equivalently, the at-most-19 most recent prior non-system turns, in
oldest-first order with system turns excluded, followed by a final user
turn carrying the current message text. -/
theorem sendChatHistory_window (hist : List ChatMsg) (msg : List Char) :
    sendChatHistory hist msg
      = (hist.filter (fun m => m.role != ChatRole.system)).rtake 19
          ++ [ChatMsg.mk .user msg] := by
  unfold sendChatHistory
  rw [List.filter_append]
  simp only [List.filter_cons, List.filter_nil]
  norm_num
  exact List.rtake_concat_succ _ _ _

/-! ## AgentProcessingStage — provider resolution and user-visible outcome

Modelled from the spec: the Python agent-processing stage is not in the
source tree; §4.3 and §7 fix that a missing provider is recovered locally
as a friendly terminal reply and that a woken message always yields a
reply.  The dashboard side of the same guarantee (`app.sendChat` in
src/data/dist/js/app.js) is embedded from the code. -/

/-- Provider configuration (§3): unique id and the default flag. -/
structure ProviderConfig where
  id : String
  isDefault : Bool
deriving DecidableEq

/-- Modelled from the spec: resolve the provider to use — the explicit
per-chat override if present, else the default provider config. -/
def resolveProvider (providers : List ProviderConfig) (override : Option String) :
    Option ProviderConfig :=
  match override.bind (fun pid => providers.find? (fun p => p.id == pid)) with
  | some p => some p
  | none => providers.find? (fun p => p.isDefault)

/-- The localized friendly text returned when no LLM provider is
configured (CHANGELOG v1.1.1: a friendly Chinese message instead of a
silent failure). -/
def noProviderMessage : String := "未配置 LLM 提供商，请在管理面板中添加。"

/-- Friendly text for a provider call that failed after all retries. -/
def providerFailedMessage : String := "模型调用失败，请稍后重试。"

/-- Bounded tool-limit text for a capped tool loop. -/
def toolLimitMessage : String := "unable to complete within tool-call limit"

/-- A canonical reply directed to the originating chat. -/
structure Reply where
  text : String
deriving DecidableEq

/-- Modelled from the spec: processing of a woken message (§4.3/§4.4/§7).
If no provider resolves, a terminal friendly reply is produced — the stage
does not throw; otherwise the orchestrator runs and each terminal state is
rendered into a reply.  The function is total: every woken message yields
a reply. -/
def processWokenMessage (providers : List ProviderConfig) (override : Option String)
    (provider : List ConversationTurn → ProviderResp)
    (execTool : ToolCall → Except String String)
    (maxRounds : Nat) (turns : List ConversationTurn) : Reply :=
  match resolveProvider providers override with
  | none => ⟨noProviderMessage⟩
  | some _ =>
    match (orchRun provider execTool maxRounds turns).result with
    | .done c => ⟨c⟩
    | .failed => ⟨providerFailedMessage⟩
    | .capped => ⟨toolLimitMessage⟩

/-- What `sendChat` renders after the API call settles: on success the
assistant content is appended; on failure an inline `[错误] …` assistant
bubble is appended (src/data/dist/js/app.js, `sendChat` catch branch). -/
def sendChatRender (histBefore : List ChatMsg) (msg : List Char)
    (apiOutcome : Except (List Char) (List Char)) : List ChatMsg :=
  let withUser := histBefore ++ [ChatMsg.mk .user msg]
  match apiOutcome with
  | .ok content => withUser ++ [ChatMsg.mk .assistant content]
  | .error e => withUser ++ [ChatMsg.mk .assistant ("[错误] ".toList ++ e)]

/-- C5. A woken message always yields a reply: when no provider resolves
the stage returns the terminal localized friendly reply (it does not
throw), and otherwise the reply is the orchestrator's substantive content
or one of the short explanatory messages.  On the dashboard side, every
API outcome of `sendChat` appends exactly one assistant bubble after the
user's message — the message is never silently dropped. -/
theorem processing_always_replies (providers : List ProviderConfig)
    (override : Option String)
    (provider : List ConversationTurn → ProviderResp)
    (execTool : ToolCall → Except String String)
    (maxRounds : Nat) (turns : List ConversationTurn)
    (histBefore : List ChatMsg) (msg : List Char)
    (apiOutcome : Except (List Char) (List Char)) :
    (resolveProvider providers override = none →
      processWokenMessage providers override provider execTool maxRounds turns
        = ⟨noProviderMessage⟩) ∧
    (processWokenMessage providers override provider execTool maxRounds turns
        = ⟨noProviderMessage⟩ ∨
      processWokenMessage providers override provider execTool maxRounds turns
        = ⟨providerFailedMessage⟩ ∨
      processWokenMessage providers override provider execTool maxRounds turns
        = ⟨toolLimitMessage⟩ ∨
      ∃ c, (orchRun provider execTool maxRounds turns).result = .done c ∧
        processWokenMessage providers override provider execTool maxRounds turns
          = ⟨c⟩) ∧
    (∃ shown, sendChatRender histBefore msg apiOutcome
        = histBefore ++ [ChatMsg.mk .user msg, ChatMsg.mk .assistant shown]) := by
  refine ⟨?_, ?_, ?_⟩
  · intro hnone
    simp [processWokenMessage, hnone]
  · unfold processWokenMessage
    cases hres : resolveProvider providers override with
    | none => exact Or.inl rfl
    | some p =>
      cases horch : (orchRun provider execTool maxRounds turns).result with
      | done c => exact Or.inr (Or.inr (Or.inr ⟨c, rfl, rfl⟩))
      | failed => exact Or.inr (Or.inl rfl)
      | capped => exact Or.inr (Or.inr (Or.inl rfl))
  · cases apiOutcome with
    | ok content => exact ⟨content, by simp [sendChatRender]⟩
    | error e => exact ⟨"[错误] ".toList ++ e, by simp [sendChatRender]⟩

/-- C5 witness: with no providers configured, a woken message gets the
localized friendly reply, and a failed dashboard call still shows an error
bubble. -/
theorem processing_always_replies_witness :
    processWokenMessage [] none (fun _ => .failure) (fun _ => .ok "") 5
        [.user "hi"] = ⟨noProviderMessage⟩ ∧
    sendChatRender [] "hi".toList (.error "HTTP 500".toList)
      = [ChatMsg.mk .user "hi".toList,
         ChatMsg.mk .assistant ("[错误] HTTP 500".toList)] := by
  have h := processing_always_replies [] none (fun _ => .failure)
    (fun _ => .ok "") 5 [.user "hi"] [] "hi".toList (.error "HTTP 500".toList)
  exact ⟨h.1 (by decide), by decide⟩

/-! ## EventDispatcher — bootstrap wiring check

Modelled from the spec: the Python dispatcher is not in the source tree
(the CHANGELOG documents the historical "consumer never wired" defect and
its fix); §4.1/§7 fix the contract: the dispatcher can be queried for
event kinds with zero subscribers, wiring happens in one bootstrap step
before any adapter publishes, and startup fails loudly on a wiring gap. -/

/-- An event kind and the dispatcher's subscription table (handler ids
registered per kind, in registration order). -/
def Subscriptions : Type := List (String × Nat)

/-- Handlers currently subscribed to a kind, in registration order. -/
def handlersFor (subs : Subscriptions) (kind : String) : List Nat :=
  (subs.filter (fun s => s.1 == kind)).map (fun s => s.2)

/-- The dispatcher's wiring query: every required event kind with zero
subscribers. -/
def unwiredKinds (required : List String) (subs : Subscriptions) : List String :=
  required.filter (fun k => (handlersFor subs k).isEmpty)

/-- Modelled from the spec: the bootstrap sequence — executed before any
adapter starts publishing — queries the dispatcher and refuses to enter
steady-state operation when any required kind is unwired, surfacing the
offending kinds as a fatal `DispatcherWiringError`. -/
def bootstrap (required : List String) (subs : Subscriptions) :
    Except (List String) Unit :=
  match unwiredKinds required subs with
  | [] => .ok ()
  | k :: ks => .error (k :: ks)

/-- C6. Startup reaches steady state exactly when every required event
kind has at least one subscriber; otherwise it fails loudly before any
adapter publishes, reporting precisely the required kinds that have zero
subscribers — it never proceeds silently. -/
theorem bootstrap_fails_loudly (required : List String) (subs : Subscriptions) :
    (bootstrap required subs = .ok () ↔
      ∀ k ∈ required, handlersFor subs k ≠ []) ∧
    (∀ missing, bootstrap required subs = .error missing →
      missing ≠ [] ∧
      ∀ k, k ∈ missing ↔ (k ∈ required ∧ handlersFor subs k = [])) := by
  constructor
  · constructor
    · intro hok k hk
      unfold bootstrap at hok
      split at hok
      · next hnil =>
        intro hempty
        have : k ∈ unwiredKinds required subs := by
          unfold unwiredKinds
          rw [List.mem_filter]
          exact ⟨hk, by simp [hempty]⟩
        rw [hnil] at this
        exact absurd this (List.not_mem_nil k)
      · exact absurd hok (by simp)
    · intro hall
      unfold bootstrap
      split
      · rfl
      · next k ks hcons =>
        have : k ∈ unwiredKinds required subs := by rw [hcons]; exact List.mem_cons_self k ks
        unfold unwiredKinds at this
        rw [List.mem_filter] at this
        obtain ⟨hk, hempty⟩ := this
        exact absurd (List.isEmpty_iff.mp (by simpa using hempty)) (hall k hk)
  · intro missing herr
    unfold bootstrap at herr
    split at herr
    · exact absurd herr (by simp)
    · next k ks hcons =>
      have hmiss : missing = k :: ks := by
        injection herr with h
        exact h.symm
      subst hmiss
      refine ⟨List.cons_ne_nil k ks, ?_⟩
      intro k'
      rw [← hcons]
      unfold unwiredKinds
      rw [List.mem_filter]
      constructor
      · intro ⟨hk, hempty⟩
        exact ⟨hk, List.isEmpty_iff.mp (by simpa using hempty)⟩
      · intro ⟨hk, hempty⟩
        exact ⟨hk, by simp [hempty]⟩

/-- C6 witness: with required kinds `message_received` and `lifecycle`
but a subscriber wired only for the latter, startup fails loudly naming
exactly the unwired kind; wiring both lets startup proceed. -/
theorem bootstrap_fails_loudly_witness :
    bootstrap ["message_received", "lifecycle"] [("lifecycle", 0)]
      = .error ["message_received"] ∧
    bootstrap ["message_received", "lifecycle"]
      [("message_received", 1), ("lifecycle", 0)] = .ok () := by
  constructor
  · rfl
  · exact (bootstrap_fails_loudly ["message_received", "lifecycle"]
      [("message_received", 1), ("lifecycle", 0)]).1.mpr (by decide)

/-! ## Dashboard persona management (src/data/dist/js/app.js)

`app.actions.savePersona`, `app.actions.deletePersona` and
`app.actions.setDefaultPersona` edit the `personas` list and the
`default_persona` name of `/api/config`; `app.loadPersonas` marks a
persona as the default exactly when its name equals `default_persona`. -/

/-- A persona entry as written by `savePersona`. -/
structure Persona where
  name : String
  description : String
  prompt : String
deriving DecidableEq

/-- The persona-related configuration state: the personas list and the
single `default_persona` name. -/
structure PersonaState where
  personas : List Persona
  defaultName : String
deriving DecidableEq

/-- The persona operations the dashboard offers: save (create when
`editIdx` is absent or out of range, edit in place otherwise), delete by
index, and set-default by name. -/
inductive PersonaOp where
  | save (editIdx : Option Nat) (name description prompt : String)
  | delete (idx : Nat)
  | setDefault (name : String)
deriving DecidableEq

/-- One dashboard persona action as performed by
`app.actions.savePersona` / `deletePersona` / `setDefaultPersona`:
save validates that name and prompt are non-empty (otherwise it only
notifies), then replaces the edited slot when the index is in range and
pushes a new entry otherwise; delete splices only an in-range index;
set-default overwrites the `default_persona` name. -/
def applyPersonaOp (st : PersonaState) : PersonaOp → PersonaState
  | .save editIdx name desc prompt =>
    if name = "" ∨ prompt = "" then st
    else
      let entry : Persona := ⟨name, desc, prompt⟩
      match editIdx with
      | some i =>
        if i < st.personas.length then
          { st with personas := st.personas.set i entry }
        else
          { st with personas := st.personas ++ [entry] }
      | none => { st with personas := st.personas ++ [entry] }
  | .delete i =>
    if i < st.personas.length then
      { st with personas := st.personas.eraseIdx i }
    else st
  | .setDefault name => { st with defaultName := name }

/-- A sequence of dashboard persona actions. -/
def applyPersonaOps (st : PersonaState) (ops : List PersonaOp) : PersonaState :=
  ops.foldl applyPersonaOp st

/-- The personas `loadPersonas` renders as the default: those whose name
equals the configured `default_persona`. -/
def defaultPersonas (st : PersonaState) : List Persona :=
  st.personas.filter (fun p => p.name == st.defaultName)

/-- C7 counterexample: creating the persona "A" twice and making "A" the
default is a legal operation sequence after which the names are not
unique and two personas are rendered as the default. -/
theorem persona_invariant_claim_false :
    ¬ (((applyPersonaOps ⟨[], ""⟩
          [.save none "A" "" "p", .save none "A" "" "p",
           .setDefault "A"]).personas.map Persona.name).Nodup ∧
        (defaultPersonas (applyPersonaOps ⟨[], ""⟩
          [.save none "A" "" "p", .save none "A" "" "p",
           .setDefault "A"])).length ≤ 1) := by
  decide

/-- Does a persona operation avoid introducing a name already used by
another slot?  Saves that fail validation are harmless; a create must use
a name not already present; an in-range edit must use a name not used by
any other slot; deletes and set-default are always safe. -/
def personaOpFresh (st : PersonaState) : PersonaOp → Bool
  | .save editIdx name _ prompt =>
    if name = "" ∨ prompt = "" then true
    else
      match editIdx with
      | some i =>
        if i < st.personas.length then
          decide (name ∉ (st.personas.map Persona.name).eraseIdx i)
        else decide (name ∉ st.personas.map Persona.name)
      | none => decide (name ∉ st.personas.map Persona.name)
  | .delete _ => true
  | .setDefault _ => true

/-- Freshness of a whole operation sequence, each step judged against the
state it runs in. -/
def personaOpsFresh : PersonaState → List PersonaOp → Bool
  | _, [] => true
  | st, op :: ops =>
    personaOpFresh st op && personaOpsFresh (applyPersonaOp st op) ops

/-- Overwriting slot `i` keeps names unique when the new value does not
occur outside slot `i`. -/
theorem nodup_set_of_not_mem_eraseIdx {α : Type} {l : List α} {i : Nat} {a : α}
    (hi : i < l.length) (hl : l.Nodup) (ha : a ∉ l.eraseIdx i) :
    (l.set i a).Nodup := by
  rw [List.set_eq_take_cons_drop a hi]
  rw [List.eraseIdx_eq_take_drop_succ] at ha
  rw [List.nodup_middle]
  refine List.nodup_cons.mpr ⟨ha, ?_⟩
  rw [← List.eraseIdx_eq_take_drop_succ]
  exact hl.sublist (List.eraseIdx_sublist l i)

/-- With unique names, at most one persona carries any given name. -/
theorem filter_name_length_le (d : String) :
    ∀ (ps : List Persona), (ps.map Persona.name).Nodup →
      (ps.filter (fun p => p.name == d)).length ≤ 1 := by
  intro ps
  induction ps with
  | nil => intro _; simp
  | cons p ps ih =>
    intro h
    rw [List.map_cons, List.nodup_cons] at h
    obtain ⟨hnot, hps⟩ := h
    rw [List.filter_cons]
    by_cases hd : p.name = d
    · have : ps.filter (fun q => q.name == d) = [] := by
        rw [List.filter_eq_nil_iff]
        intro q hq hqd
        rw [beq_iff_eq] at hqd
        have : q.name ∈ List.map Persona.name ps :=
          List.mem_map_of_mem Persona.name hq
        rw [hqd, ← hd] at this
        exact hnot this
      simp [hd, this]
    · have : (p.name == d) = false := by simp [hd]
      rw [this]
      simp only [Bool.false_eq_true, if_false]
      exact ih hps

/-- A single fresh dashboard action preserves uniqueness of names. -/
theorem personaNames_nodup_step (st : PersonaState) (op : PersonaOp)
    (h : (st.personas.map Persona.name).Nodup)
    (hf : personaOpFresh st op = true) :
    ((applyPersonaOp st op).personas.map Persona.name).Nodup := by
  cases op with
  | save editIdx name desc prompt =>
    unfold applyPersonaOp personaOpFresh at *
    by_cases hval : name = "" ∨ prompt = ""
    · simpa [hval] using h
    · simp only [hval, if_false] at hf ⊢
      cases editIdx with
      | none =>
        rw [decide_eq_true_eq] at hf
        simp only [List.map_append, List.map_cons, List.map_nil]
        rw [List.nodup_middle]
        exact List.nodup_cons.mpr ⟨by simpa using hf, by simpa using h⟩
      | some i =>
        by_cases hi : i < st.personas.length
        · simp only [hi, if_true] at hf ⊢
          rw [decide_eq_true_eq] at hf
          rw [List.map_set]
          exact nodup_set_of_not_mem_eraseIdx (by simpa using hi) h
            (by simpa using hf)
        · simp only [hi, if_false] at hf ⊢
          rw [decide_eq_true_eq] at hf
          simp only [List.map_append, List.map_cons, List.map_nil]
          rw [List.nodup_middle]
          exact List.nodup_cons.mpr ⟨by simpa using hf, by simpa using h⟩
  | delete i =>
    unfold applyPersonaOp
    by_cases hi : i < st.personas.length
    · simp only [hi, if_true]
      exact h.sublist ((List.eraseIdx_sublist st.personas i).map Persona.name)
    · simpa [hi] using h
  | setDefault name => simpa [applyPersonaOp] using h

/-- C7 (amended). The configured default is a single name, so the set of
personas rendered as default all share that one name; and after every
operation sequence in which each save uses a name not already used by
another slot, persona names stay unique and at most one persona is the
default.  (Without that freshness condition the dashboard happily creates
duplicate names — see the counterexample.) -/
theorem persona_invariants_preserved :
    ∀ (ops : List PersonaOp) (st : PersonaState),
      (st.personas.map Persona.name).Nodup →
      personaOpsFresh st ops = true →
      ((applyPersonaOps st ops).personas.map Persona.name).Nodup ∧
      (defaultPersonas (applyPersonaOps st ops)).length ≤ 1 := by
  intro ops
  induction ops with
  | nil =>
    intro st h _
    exact ⟨h, filter_name_length_le st.defaultName st.personas h⟩
  | cons op ops ih =>
    intro st h hf
    rw [personaOpsFresh, Bool.and_eq_true] at hf
    exact ih (applyPersonaOp st op)
      (personaNames_nodup_step st op h hf.1) hf.2

/-- C7 witness: creating "A" and "B" and making "A" the default keeps
names unique with exactly one default persona. -/
theorem persona_invariants_preserved_witness :
    ((applyPersonaOps ⟨[], ""⟩
        [.save none "A" "" "p", .setDefault "A",
         .save none "B" "" "q"]).personas.map Persona.name).Nodup ∧
    (defaultPersonas (applyPersonaOps ⟨[], ""⟩
        [.save none "A" "" "p", .setDefault "A",
         .save none "B" "" "q"])).length ≤ 1 :=
  persona_invariants_preserved
    [.save none "A" "" "p", .setDefault "A", .save none "B" "" "q"]
    ⟨[], ""⟩ (by decide) (by decide)

/-! ## Dashboard settings — wake-prefix field round trip
(src/data/dist/js/app.js)

`app.loadSettings` renders `wake_prefixes` with `.join(", ")`;
`app.actions.saveSettings` parses the field back with
`.split(",").map(s => s.trim()).filter(Boolean)`. -/

/-- `loadSettings`: `(cfg.agent?.wake_prefixes || []).join(", ")`. -/
def renderWakePrefixes (l : List (List Char)) : List Char :=
  List.intercalate ", ".toList l

/-- `saveSettings`: `.split(",").map(s => s.trim()).filter(Boolean)`
(`filter(Boolean)` drops empty strings). -/
def saveWakePrefixes (s : List Char) : List (List Char) :=
  ((s.splitOn ',').map trimChars).filter (fun t => !t.isEmpty)

/-- Trimming ignores one leading space. -/
theorem trimChars_space_cons (s : List Char) :
    trimChars (' ' :: s) = trimChars s := by
  unfold trimChars
  rw [List.dropWhile_cons, if_pos (by decide)]

/-- Joining with `", "` is joining with `","` after prefixing every item
but the first with one space. -/
theorem intercalate_comma_space :
    ∀ (xs : List (List Char)) (x : List Char),
      List.intercalate [',', ' '] (x :: xs)
        = List.intercalate [','] (x :: xs.map (fun s => ' ' :: s)) := by
  intro xs
  induction xs with
  | nil => intro x; rfl
  | cons y ys ih =>
    intro x
    have hx : ∀ (sep a : List Char) (L : List (List Char)) (c : Char),
        List.intercalate sep ((c :: a) :: L)
          = c :: List.intercalate sep (a :: L) := by
      intro sep a L c
      cases L <;> rfl
    have hcons : ∀ (sep : List Char) (a b : List Char) (L : List (List Char)),
        List.intercalate sep (a :: b :: L)
          = a ++ sep ++ List.intercalate sep (b :: L) := by
      intro sep a b L
      simp [List.intercalate, List.intersperse_cons_cons, List.append_assoc]
    rw [List.map_cons, hcons [',', ' '] x y ys,
      hcons [','] x (' ' :: y) (ys.map (fun s => ' ' :: s)), ih y,
      hx [','] y (ys.map (fun s => ' ' :: s)) ' ']
    simp [List.append_assoc]

/-- C8. For every ordered wake-prefix list whose items are non-empty,
comma-free and carry no surrounding whitespace, saving the rendered
settings field returns exactly the original list in the original order:
`split(",") ∘ trim ∘ filter(Boolean)` inverts `join(", ")`. -/
theorem wakePrefixes_roundtrip (l : List (List Char))
    (h : ∀ s ∈ l, s ≠ [] ∧ ',' ∉ s ∧ trimChars s = s) :
    saveWakePrefixes (renderWakePrefixes l) = l := by
  cases l with
  | nil => rfl
  | cons x xs =>
    unfold renderWakePrefixes
    rw [show (", ".toList) = [',', ' '] from rfl, intercalate_comma_space]
    unfold saveWakePrefixes
    rw [List.splitOn_intercalate (x :: xs.map (fun s => ' ' :: s)) ','
      (by
        intro m hm
        rcases List.mem_cons.mp hm with rfl | hm'
        · exact (h m (List.mem_cons_self m xs)).2.1
        · obtain ⟨s, hs, rfl⟩ := List.mem_map.mp hm'
          intro hmem
          rcases List.mem_cons.mp hmem with hc | hc
          · exact absurd hc (by decide)
          · exact (h s (List.mem_cons_of_mem x hs)).2.1 hc)
      (List.cons_ne_nil x _)]
    rw [List.map_cons, List.map_map]
    have hmapped : (xs.map (trimChars ∘ fun s => ' ' :: s)) = xs := by
      have hpt : ∀ s ∈ xs, (trimChars ∘ fun s => ' ' :: s) s = s := by
        intro s hs
        show trimChars (' ' :: s) = s
        rw [trimChars_space_cons]
        exact (h s (List.mem_cons_of_mem x hs)).2.2
      calc xs.map (trimChars ∘ fun s => ' ' :: s)
          = xs.map (fun s => s) := List.map_congr_left hpt
        _ = xs := by simp
    rw [hmapped, (h x (List.mem_cons_self x xs)).2.2]
    rw [List.filter_eq_self.mpr]
    intro a ha
    rcases List.mem_cons.mp ha with rfl | ha'
    · simpa using (h a (List.mem_cons_self a xs)).1
    · simpa using (h a (List.mem_cons_of_mem x ha')).1

/-- C8 witness: the list `["/", "!bot"]` survives the render/save round
trip unchanged. -/
theorem wakePrefixes_roundtrip_witness :
    saveWakePrefixes (renderWakePrefixes ["/".toList, "!bot".toList])
      = ["/".toList, "!bot".toList] :=
  wakePrefixes_roundtrip ["/".toList, "!bot".toList] (by decide)

/-! ## Dashboard API helper — `api()` (src/data/dist/js/app.js)

```js
const res = await fetch(url, {...});
const json = await res.json().catch(() => null);
if (!res.ok) { const msg = json?.message || `HTTP ${res.status}`; throw new Error(msg); }
if (json?.status === "error") throw new Error(json.message || "Unknown error");
return json?.data ?? json;
```
A parsed body is a JSON value; a failed parse is `none`. -/

/-- A JSON value as parsed by `res.json()`. -/
inductive Json where
  | null
  | bool (b : Bool)
  | num (n : Int)
  | str (s : String)
  | arr (items : List Json)
  | obj (fields : List (String × Json))

/-- JavaScript property access `j.key` on a parsed value: a field of an
object, `undefined` (here `none`) otherwise. -/
def getField : Json → String → Option Json
  | .obj fields, key => (fields.find? (fun f => f.1 == key)).map (fun f => f.2)
  | _, _ => none

/-- JavaScript truthiness of a JSON value (`null`, `false`, `0` and `""`
are falsy; arrays and objects are truthy). -/
def jsTruthy : Json → Bool
  | .null => false
  | .bool b => b
  | .num n => n != 0
  | .str s => s != ""
  | .arr _ => true
  | .obj _ => true

/-- `String(...)` coercion applied when a truthy non-string message lands
in `new Error(msg)`; the rendering of arrays is abstracted — the claim
does not depend on message contents. -/
def jsDisplay : Json → String
  | .null => "null"
  | .bool b => if b then "true" else "false"
  | .num n => toString n
  | .str s => s
  | .arr _ => "[array]"
  | .obj _ => "[object Object]"

/-- The template string rendering of the HTTP status. -/
def httpMsg (status : Nat) : String := "HTTP " ++ toString status

/-- `json?.status === "error"`: strict equality against the string
`"error"`. -/
def isErrorStatus (body : Option Json) : Bool :=
  match body.bind (fun j => getField j "status") with
  | some (.str s) => s == "error"
  | _ => false

/-- `json?.message || fallback`. -/
def messageOr (body : Option Json) (fallback : String) : String :=
  match body.bind (fun j => getField j "message") with
  | some v => if jsTruthy v then jsDisplay v else fallback
  | none => fallback

/-- `json?.data ?? json`: the `data` field when present and non-null,
otherwise the whole parsed value, with a failed parse left as `null`. -/
def apiReturnValue (body : Option Json) : Json :=
  match body with
  | none => .null
  | some j =>
    match getField j "data" with
    | some .null => j
    | some d => d
    | none => j

/-- The `api()` helper: throw (`.error`) on a non-ok HTTP status or on a
body carrying `status == "error"`, otherwise return `json?.data ?? json`. -/
def apiCall (ok : Bool) (status : Nat) (body : Option Json) :
    Except String Json :=
  if !ok then
    .error (messageOr body (httpMsg status))
  else if isErrorStatus body then
    .error (messageOr body "Unknown error")
  else
    .ok (apiReturnValue body)

/-- What the claim literally says the helper returns on success: the
`data` field whenever present, the whole body otherwise. -/
def claimedApiReturn (body : Option Json) : Json :=
  match body with
  | none => .null
  | some j =>
    match getField j "data" with
    | some d => d
    | none => j

/-- C9 counterexample: on a successful response whose body is
`{"status": "ok", "data": null}` the code returns the whole body (the
`??` operator skips a present-but-null `data` field), while the claim as
stated returns the `data` field, i.e. `null`. -/
theorem api_return_claim_false :
    apiCall true 200 (some (.obj [("status", .str "ok"), ("data", .null)]))
      ≠ .ok (claimedApiReturn
          (some (.obj [("status", .str "ok"), ("data", .null)]))) := by
  intro hcontra
  have h1 : apiCall true 200
      (some (.obj [("status", .str "ok"), ("data", .null)]))
      = .ok (.obj [("status", .str "ok"), ("data", .null)]) := rfl
  have h2 : claimedApiReturn
      (some (.obj [("status", .str "ok"), ("data", .null)])) = .null := rfl
  rw [h1, h2] at hcontra
  injection hcontra with h3
  exact Json.noConfusion h3

/-- C9 (amended). The helper throws exactly when the HTTP status is not
ok or the parsed body carries `status == "error"`; otherwise it returns
the body's `data` field when that field is present and non-null, and the
whole parsed body otherwise; a non-JSON body on a successful status
yields `null` rather than a thrown parse error. -/
theorem api_throw_iff (ok : Bool) (status : Nat) (body : Option Json) :
    ((∃ e, apiCall ok status body = .error e) ↔
      (ok = false ∨ isErrorStatus body = true)) ∧
    (body = none → ok = true → apiCall ok status body = .ok .null) ∧
    (∀ j, body = some j → ok = true → isErrorStatus body = false →
      (∀ d, getField j "data" = some d → d ≠ .null →
        apiCall ok status body = .ok d) ∧
      (getField j "data" = none ∨ getField j "data" = some .null →
        apiCall ok status body = .ok j)) := by
  refine ⟨?_, ?_, ?_⟩
  · cases ok with
    | false =>
      constructor
      · intro _; exact Or.inl rfl
      · intro _
        exact ⟨messageOr body (httpMsg status), rfl⟩
    | true =>
      cases herr : isErrorStatus body with
      | true =>
        constructor
        · intro _; exact Or.inr rfl
        · intro _
          refine ⟨messageOr body "Unknown error", ?_⟩
          simp [apiCall, herr]
      | false =>
        constructor
        · intro ⟨e, he⟩
          simp [apiCall, herr] at he
        · intro hcase
          rcases hcase with hok | htrue
          · exact absurd hok (by simp)
          · exact absurd htrue (by simp)
  · intro hbody hok
    subst hbody; subst hok
    rfl
  · intro j hbody hok herr
    subst hbody; subst hok
    constructor
    · intro d hd hdnull
      simp only [apiCall, Bool.not_true, Bool.false_eq_true, if_false, herr,
        apiReturnValue, hd]
    · intro hd
      simp only [apiCall, Bool.not_true, Bool.false_eq_true, if_false, herr,
        apiReturnValue]
      rcases hd with hd | hd
      · rw [hd]
      · rw [hd]

/-- C9 witness: a successful response `{"data": 5}` returns `5`; a
non-JSON body on a successful status returns `null`; a 500 response
throws. -/
theorem api_throw_iff_witness :
    apiCall true 200 (some (.obj [("data", .num 5)])) = .ok (.num 5) ∧
    apiCall true 200 none = .ok .null ∧
    (∃ e, apiCall false 500 none = .error e) := by
  refine ⟨?_, ?_, ?_⟩
  · exact ((api_throw_iff true 200 (some (.obj [("data", .num 5)]))).2.2
      (.obj [("data", .num 5)]) rfl rfl rfl).1 (.num 5) rfl
      (fun h => Json.noConfusion h)
  · exact (api_throw_iff true 200 none).2.1 rfl rfl
  · exact (api_throw_iff false 500 none).1.mpr (Or.inl rfl)

/-! ## Dashboard router guard (src/dashboard/src/router/index.ts)

The guard receives the target route (named `target` below), checks its
merged `meta.requiresAuth` against `authStore.isAuthenticated`, and calls
`next('/login')`, `next('/')` or plain `next()`.
`isAuthenticated` is `!!token.value` in the auth store; the login flow
only stores truthy (non-empty) tokens.  Route meta is inherited: `/login`
carries `requiresAuth: false`, the dashboard layout and all its children
carry `requiresAuth: true`. -/

/-- A resolved route target: its path and the merged `requiresAuth` meta. -/
structure RouteTarget where
  path : String
  requiresAuth : Bool
deriving DecidableEq

/-- The route table of `createRouter`, with the parent layout's
`requiresAuth: true` inherited by its children. -/
def routeTable : List RouteTarget :=
  [⟨"/login", false⟩, ⟨"/", true⟩, ⟨"/providers", true⟩, ⟨"/platforms", true⟩,
   ⟨"/plugins", true⟩, ⟨"/tools", true⟩, ⟨"/logs", true⟩, ⟨"/settings", true⟩]

/-- `authStore.isAuthenticated`: `!!token.value` — `null` and the empty
string are falsy. -/
def isAuthenticated (token : Option String) : Bool :=
  match token with
  | none => false
  | some s => s != ""

/-- Outcome of the navigation guard: redirect somewhere else or let the
navigation proceed unchanged. -/
inductive NavDecision where
  | redirect (target : String)
  | proceed
deriving DecidableEq

/-- `router.beforeEach` of src/dashboard/src/router/index.ts. -/
def beforeEach (target : RouteTarget) (token : Option String) : NavDecision :=
  if target.requiresAuth && !isAuthenticated token then
    .redirect "/login"
  else if target.path == "/login" && isAuthenticated token then
    .redirect "/"
  else
    .proceed

/-- C10. For every navigation whose target is a route of the table: the
guard redirects toward `/login` whenever the target requires
authentication and no (truthy) token is stored; it redirects toward `/`
whenever the target is `/login` and a token is stored; otherwise it lets
the navigation proceed unchanged; and consequently a navigation reaching
a protected route proceeds only when a token is stored. -/
theorem router_guard_protects (target : RouteTarget) (token : Option String)
    (_hto : target ∈ routeTable) :
    (target.requiresAuth = true → isAuthenticated token = false →
      beforeEach target token = .redirect "/login") ∧
    (target.path = "/login" → isAuthenticated token = true →
      beforeEach target token = .redirect "/") ∧
    (¬(target.requiresAuth = true ∧ isAuthenticated token = false) →
      ¬(target.path = "/login" ∧ isAuthenticated token = true) →
      beforeEach target token = .proceed) ∧
    (beforeEach target token = .proceed → target.requiresAuth = true →
      isAuthenticated token = true) := by
  refine ⟨?_, ?_, ?_, ?_⟩
  · intro hreq hauth
    simp [beforeEach, hreq, hauth]
  · intro hpath hauth
    have hreq : (target.requiresAuth && !isAuthenticated token) = false := by
      simp [hauth]
    simp [beforeEach, hreq, hpath, hauth]
  · intro hnot1 hnot2
    have h1 : (target.requiresAuth && !isAuthenticated token) = false := by
      cases hr : target.requiresAuth with
      | false => simp
      | true =>
        have ha : isAuthenticated token = true := by
          by_contra haf
          rw [Bool.not_eq_true] at haf
          exact hnot1 ⟨hr, haf⟩
        simp [ha]
    have h2 : (target.path == "/login" && isAuthenticated token) = false := by
      by_cases hp : target.path = "/login"
      · have ha : isAuthenticated token = false := by
          by_contra hat
          rw [Bool.not_eq_false] at hat
          exact hnot2 ⟨hp, hat⟩
        simp [ha]
      · simp [hp]
    simp [beforeEach, h1, h2]
  · intro hproceed hreq
    by_contra hauth
    rw [Bool.not_eq_true] at hauth
    rw [show beforeEach target token = .redirect "/login" by
      simp [beforeEach, hreq, hauth]] at hproceed
    exact NavDecision.noConfusion hproceed

/-- C10 witness: reaching for `/settings` with no stored token redirects
onto `/login`; reaching for `/login` with a stored token redirects onto
`/`; reaching for `/settings` with a stored token proceeds. -/
theorem router_guard_protects_witness :
    beforeEach ⟨"/settings", true⟩ none = .redirect "/login" ∧
    beforeEach ⟨"/login", false⟩ (some "tok") = .redirect "/" ∧
    beforeEach ⟨"/settings", true⟩ (some "tok") = .proceed := by
  refine ⟨?_, ?_, ?_⟩
  · exact (router_guard_protects ⟨"/settings", true⟩ none
      (by decide)).1 rfl rfl
  · exact (router_guard_protects ⟨"/login", false⟩ (some "tok")
      (by decide)).2.1 rfl (by decide)
  · exact (router_guard_protects ⟨"/settings", true⟩ (some "tok")
      (by decide)).2.2.1 (by decide) (by decide)

end AetherPackBot
